import Mathlib

/-!
Verification of the framing/decoding protocol layer of the StarGazer
driver (stargazer.py): frame extraction from a byte buffer, pose payload
decoding, local-to-global coordinate resolution, the command channel
handshake, and the streaming lifecycle flags.

Strings from the source are modelled as `List Char`; device numeric
fields are parsed into exact rationals; the 4x4 homogeneous transforms
are matrices over the reals.
-/

set_option maxHeartbeats 1000000
set_option maxRecDepth 4000

/-- STX: char that represents the start of a properly formed message. -/
def STX : Char := '~'

/-- ETX: char that represents the end of a properly formed message
(the backquote character, code point 96). -/
def ETX : Char := Char.ofNat 96

/-- DELIM: char that splits data. -/
def DELIM : Char := '|'

/-- CMD: char that indicates command. -/
def CMD : Char := '#'

/-- RESPONSE: char that indicates a command response. -/
def RESPONSE : Char := '!'

/-- RESULT: char that indicates that the message contains result data. -/
def RESULT : Char := '^'

/-- Value of a single ASCII decimal digit, as used by Python `int` on a
one-character string; `none` mirrors the `ValueError` on non-digits. -/
def parseDigit (c : Char) : Option ℕ :=
  if ('0' ≤ c ∧ c ≤ '9') then some (c.toNat - ('0').toNat) else none

/-- Accumulate decimal digits left to right; fails on a non-digit. -/
def digitsAux (acc : ℕ) : List Char → Option ℕ
  | [] => some acc
  | c :: rest =>
    match parseDigit c with
    | some d => digitsAux (acc * 10 + d) rest
    | none => none

/-- A non-empty run of decimal digits, as accepted by Python `int`. -/
def parseNat (l : List Char) : Option ℕ :=
  if l.isEmpty then none else digitsAux 0 l

/-- Python `int` on an optionally signed decimal string. -/
def parseInt (l : List Char) : Option ℤ :=
  match l with
  | [] => none
  | c :: rest =>
    if c = '-' then (parseNat rest).map (fun n => -(n : ℤ))
    else if c = '+' then (parseNat rest).map (fun n => (n : ℤ))
    else (parseNat (c :: rest)).map (fun n => (n : ℤ))

/-- Split a character list at every occurrence of `sep`, mirroring the
Python `str.split` with an explicit separator: the empty string yields
one empty field, and separators at the ends yield empty fields. -/
def splitOnChar (sep : Char) : List Char → List (List Char)
  | [] => [[]]
  | c :: rest =>
    if c = sep then [] :: splitOnChar sep rest
    else
      match splitOnChar sep rest with
      | h :: t => (c :: h) :: t
      | [] => [[c]]

/-- Magnitude of a decimal numeral with an optional point, as accepted
by Python `float` after the sign is stripped: `175.91`, `5.`, `.5`
and plain digit runs; anything else fails. The result is exact. -/
def parseFloatMag (l : List Char) : Option ℚ :=
  match splitOnChar ('.') l with
  | [a] => (parseNat a).map (fun n => (n : ℚ))
  | [a, b] =>
    if a.isEmpty ∧ b.isEmpty then none
    else
      match digitsAux 0 (a ++ b) with
      | some n => some ((n : ℚ) / (10 : ℚ) ^ b.length)
      | none => none
  | _ => none

/-- Python `float` on an optionally signed decimal string, idealized to
an exact rational result. -/
def parseFloat (l : List Char) : Option ℚ :=
  match l with
  | [] => none
  | c :: rest =>
    if c = '-' then (parseFloatMag rest).map (fun q => -q)
    else if c = '+' then parseFloatMag rest
    else parseFloatMag (c :: rest)

/-- The numeric payload of one decoded marker, after the unit and sign
conversions of `process_raw_pose`: `yawDeg` is the raw device angle in
degrees (`float(split[1])`), and `x`, `y`, `z` are the device
centimeter fields scaled by 0.01 with the third coordinate negated. -/
structure ObsQ where
  yawDeg : ℚ
  x : ℚ
  y : ℚ
  z : ℚ
deriving DecidableEq

/-- Result of `process_raw_pose` on one extracted payload: `err` is a
raised exception (a field failed to parse), `dropped` is the logged
early return on a field-count mismatch, and `ok` carries the decoded
markers in payload order. -/
inductive PoseOutcome where
  | err : PoseOutcome
  | dropped : PoseOutcome
  | ok : List (ℤ × ObsQ) → PoseOutcome
deriving DecidableEq

/-- The per-marker loop of `process_raw_pose`: consume the delimiter
separated fields five at a time as (id, yaw, x, y, z), parsing the id
with `int` and the numerics with `float`, scaling the Cartesian fields
by 0.01 and negating the third. `none` mirrors a raised exception. -/
def decodeMarkers : List (List Char) → Option (List (ℤ × ObsQ))
  | [] => some []
  | f0 :: f1 :: f2 :: f3 :: f4 :: rest => do
    let id ← parseInt f0
    let yaw ← parseFloat f1
    let x ← parseFloat f2
    let y ← parseFloat f3
    let z ← parseFloat f4
    let tail ← decodeMarkers rest
    pure ((id, ⟨yaw, x * 0.01, y * 0.01, -(z * 0.01)⟩) :: tail)
  | _ => none

/-- `process_raw_pose(message)`: `int(message[1])` is the marker count
(raising on a non-digit or a too-short message), `message[2:]` is split
on the delimiter, a field count different from five per marker logs and
returns (`dropped`), and otherwise the markers are decoded. -/
def processRawPose (message : List Char) : PoseOutcome :=
  match message with
  | _ :: c1 :: rest =>
    match parseDigit c1 with
    | none => .err
    | some n =>
      let fields := splitOnChar DELIM rest
      if fields.length ≠ n * 5 then .dropped
      else
        match decodeMarkers fields with
        | none => .err
        | some ps => .ok ps
  | _ => .err

/-- Scan for the shortest regex match of `.+?` followed by ETX: looks
for the first ETX at distance at least one, failing on a newline first
(the regex dot does not match newlines). `acc` holds the interior
characters seen so far, reversed. On success returns the match
including its final ETX, and the characters after the match. -/
def goMatch : List Char → List Char → Option (List Char × List Char)
  | [], _ => none
  | c :: rest, acc =>
    if c = ETX then some (acc.reverse ++ [ETX], rest)
    else if c = '\n' then none
    else goMatch rest (c :: acc)

/-- One attempted match of the pattern `.+?` then ETX at a fixed start
position (the character after an STX): the first interior character is
matched unconditionally by the dot (so it may itself be an ETX), then
the scan continues for the terminating ETX. -/
def regexMatch : List Char → Option (List Char × List Char)
  | [] => none
  | c :: rest => if c = '\n' then none else goMatch rest [c]

/-- `re.findall` for the pattern lookbehind-STX, `.+?`, ETX: scan left
to right; after each STX attempt a match, resuming after a successful
match or at the next character otherwise. Fuel-indexed so that the
definition is structurally recursive; `findall` supplies enough fuel. -/
def findallAux : ℕ → List Char → List (List Char)
  | 0, _ => []
  | _ + 1, [] => []
  | fuel + 1, c :: rest =>
    if c = STX then
      match regexMatch rest with
      | some (m, after) => m :: findallAux fuel after
      | none => findallAux fuel rest
    else findallAux fuel rest

/-- All matches of the frame regex in the buffer, in order, each still
carrying its final ETX character. -/
def findall (l : List Char) : List (List Char) := findallAux l.length l

/-- The characters after the last ETX of the buffer, i.e.
`message_buffer[message_buffer.rindex(ETX)+1:]`. -/
def afterLastETX (l : List Char) : List Char :=
  (l.reverse.takeWhile (fun c => c ≠ ETX)).reverse

/-- The new buffer kept by `process_buffer`: everything after the last
ETX when one is present, the whole buffer otherwise. -/
def bufferRemainder (l : List Char) : List Char :=
  if ETX ∈ l then afterLastETX l else l

/-- `process_buffer` as a pure extraction: the payloads passed to
`process_raw_pose` (each regex match with its trailing ETX stripped)
and the retained buffer. -/
def process_buffer (l : List Char) : List (List Char) × List Char :=
  ((findall l).map List.dropLast, bufferRemainder l)

/-- Modelled from the spec wording of the Frame Extractor contract: a
span is everything strictly between an STX and the next ETX; split the
rest at that ETX. `none` when no ETX follows. -/
def splitAtETX : List Char → Option (List Char × List Char)
  | [] => none
  | c :: rest =>
    if c = ETX then some ([], rest)
    else (splitAtETX rest).map (fun p => (c :: p.1, p.2))

/-- Modelled from the spec wording: the interiors of all non-overlapping
STX-to-next-ETX spans, scanned left to right, resuming after the ETX
of each span. Fuel-indexed; `spansSpec` supplies enough fuel. -/
def spansSpecAux : ℕ → List Char → List (List Char)
  | 0, _ => []
  | _ + 1, [] => []
  | fuel + 1, c :: rest =>
    if c = STX then
      match splitAtETX rest with
      | some (i, after) => i :: spansSpecAux fuel after
      | none => []
    else spansSpecAux fuel rest

/-- Modelled from the spec wording: all span interiors of a buffer. -/
def spansSpec (l : List Char) : List (List Char) := spansSpecAux l.length l

/-- Every STX-to-ETX span of the buffer has a non-empty interior that
contains no newline character. -/
def allSpansOK (l : List Char) : Prop :=
  ∀ s ∈ spansSpec l, s ≠ [] ∧ ('\n') ∉ s

/-- One buffering iteration of the read loop: append the chunk to the
carried buffer, extract, and carry the remainder. The first component
accumulates all payloads extracted so far. -/
def feedChunk (st : List (List Char) × List Char) (c : List Char) :
    List (List Char) × List Char :=
  ((process_buffer (st.2 ++ c)).1.foldl (fun acc p => acc ++ [p]) st.1,
   (process_buffer (st.2 ++ c)).2)

/-- Feed a list of chunks through the frame extractor, starting from an
empty buffer, collecting every extracted payload. -/
def runChunks (chunks : List (List Char)) : List (List Char) × List Char :=
  chunks.foldl feedChunk ([], [])

/-- The for-loop of `process_buffer` over the regex matches, feeding
each candidate minus its trailing ETX to `process_raw_pose`: collects
the decoded marker lists delivered to callbacks, in order, and reports
whether an exception escaped (which abandons the remaining candidates). -/
def runCandidates : List (List Char) → List (List (ℤ × ObsQ)) × Bool
  | [] => ([], false)
  | c :: rest =>
    match processRawPose c.dropLast with
    | .err => ([], true)
    | .dropped => runCandidates rest
    | .ok ps => ((runCandidates rest).1.cons ps, (runCandidates rest).2)

/-- One iteration of `_read`: append the freshly read chunk to the
message buffer and process it; on an exception the buffer is reset to
empty and the loop breaks, otherwise the trimmed buffer is kept and the
loop continues. Returns (emitted marker lists, new buffer, broke). -/
def readStep (buf chunk : List Char) : List (List (ℤ × ObsQ)) × List Char × Bool :=
  let b := buf ++ chunk
  let r := runCandidates (findall b)
  if r.2 then (r.1, [], true) else (r.1, bufferRemainder b, false)

/-- 4x4 homogeneous transform matrices over the reals. -/
abbrev M4 := Matrix (Fin 4) (Fin 4) ℝ

/-- `fourdof_to_matrix`: the rotation about the z axis by `yaw`
composed with setting the translation column, exactly the matrix built
from `transformations.rotation_matrix(yaw, [0,0,1])`. -/
noncomputable def fourdof_to_matrix (t : ℝ × ℝ × ℝ) (yaw : ℝ) : M4 :=
  Matrix.of
    ![![Real.cos yaw, -Real.sin yaw, 0, t.1],
      ![Real.sin yaw, Real.cos yaw, 0, t.2.1],
      ![0, 0, 1, t.2.2],
      ![0, 0, 0, 1]]

/-- The transform stored in `pose_local` for one decoded marker:
`np.linalg.inv(fourdof_to_matrix(local_cartesian, -local_angle))` with
`local_angle = np.radians(yawDeg)`. -/
noncomputable def obsTransform (o : ObsQ) : M4 :=
  (fourdof_to_matrix ((o.x : ℝ), (o.y : ℝ), (o.z : ℝ))
    (-((o.yawDeg : ℝ) * Real.pi / 180)))⁻¹

/-- `str(marker_id)` for the integer marker keys of `pose_local`. -/
def intToKey (i : ℤ) : String := toString i

/-- `local_to_global`: iterate the local poses; normalize each key with
`str`; keys present in the marker map contribute
`np.dot(marker_to_map, np.linalg.inv(pose))` to the global pose
mapping, absent keys are added to the unknown-id set. Parametric in the
transform type, instantiated at `M4` by the driver. -/
def local_to_global {α : Type} [Mul α] [Inv α] (marker_map : String → Option α)
    (local_poses : List (ℤ × α)) : List (String × α) × Finset String :=
  local_poses.foldl
    (fun st p =>
      match marker_map (intToKey p.1) with
      | some m2m => (st.1 ++ [(intToKey p.1, m2m * p.2⁻¹)], st.2)
      | none => (st.1, insert (intToKey p.1) st.2))
    ([], ∅)

/-- `DELIM.join(args)`. -/
def joinDelim : List (List Char) → List Char := List.intercalate [DELIM]

/-- The command frame `STX + CMD + delimited + ETX` written to the
port by `_send_command`. -/
def commandStr (args : List (List Char)) : List Char :=
  STX :: CMD :: (joinDelim args ++ [ETX])

/-- The expected acknowledgement `STX + RESPONSE + delimited + ETX`. -/
def expectedResponse (args : List (List Char)) : List Char :=
  STX :: RESPONSE :: (joinDelim args ++ [ETX])

/-- `response_actual[-len(response_expected):] == response_expected`:
the accumulated bytes end with the expected frame. For an accumulation
shorter than the expected frame the Python slice is the whole string,
which then differs from the expected frame, exactly as here. -/
abbrev tailMatches (actual expected : List Char) : Prop :=
  actual.drop (actual.length - expected.length) = expected

/-- Result of the acknowledgement wait: matched, ran out of modelled
reads while still unmatched, or raised on an empty read, reporting the
command sent and the bytes accumulated. -/
inductive CmdResult where
  | ok : CmdResult
  | pending : CmdResult
  | unexpectedResponse : List Char → List Char → CmdResult
deriving DecidableEq

/-- The response-matching loop of `_send_command`: while the tail of
the accumulated bytes differs from the expected frame, read one more
byte; a successful read appends, an empty read (port timeout) raises
with the command and the accumulated bytes. Modelled over the list of
single-byte read results, `none` being an empty read. -/
def awaitEcho (cmd expected : List Char) : List Char → List (Option Char) → CmdResult
  | actual, [] => if tailMatches actual expected then .ok else .pending
  | actual, some c :: rest =>
    if tailMatches actual expected then .ok
    else awaitEcho cmd expected (actual ++ [c]) rest
  | actual, none :: _ =>
    if tailMatches actual expected then .ok else .unexpectedResponse cmd actual

/-- `_send_command args` after the command bytes are written: the first
read asks for `len(response_expected)` bytes and may return any of
them, then the loop reads single bytes. -/
def sendCommand (args : List (List Char)) (firstRead : List Char)
    (reads : List (Option Char)) : CmdResult :=
  awaitEcho (commandStr args) (expectedResponse args) firstRead reads

/-- Driver lifecycle state: `connected` mirrors
`self.connection is not None` and `thread` mirrors `self._thread`. -/
structure DriverState where
  connected : Bool
  thread : Option Unit
deriving DecidableEq

/-- `is_streaming`: `self._thread is not None`. -/
def is_streaming (s : DriverState) : Bool := s.thread.isSome

/-- `start_streaming`: assert connected and not streaming (`none` is the
assertion failure), send CalcStart, then assign
`self._thread = Thread(target=self._read, args=()).start()`; since
`Thread.start` returns `None` in Python, the stored thread is `none`. -/
def start_streaming (s : DriverState) : Option (DriverState × List Char) :=
  if s.connected = true ∧ is_streaming s = false then
    some ({ s with thread := none }, commandStr [("CalcStart").toList])
  else none

/-- `set_parameter`: assert connected and not streaming (`none` is the
assertion failure, which happens before any byte is written), then send
the command; `some` carries the bytes written to the port. -/
def set_parameter (s : DriverState) (name value : List Char) : Option (List Char) :=
  if s.connected = true ∧ is_streaming s = false then
    some (commandStr [name, value])
  else none


instance (l : List Char) : Decidable (allSpansOK l) := by
  unfold allSpansOK
  infer_instance

/-- The delivered marker lists of one candidate: the `ok` payload. -/
def okOf (c : List Char) : Option (List (ℤ × ObsQ)) :=
  match processRawPose c.dropLast with
  | .ok ps => some ps
  | _ => none

def c1payload : List Char := ("^1|148|-175.91|+98.74|+7.10|182.39").toList

def c2bad : List Char := '~' :: 'a' :: '\n' :: 'b' :: [ETX]

def c2good : List Char := ("x~ab").toList ++ [ETX] ++ ("yz").toList

def c3chunks : List (List Char) := [[STX, ETX], ['a', ETX]]

def c3wchunks : List (List Char) :=
  [("~a").toList, ("b").toList ++ [ETX] ++ ("~c").toList, [ETX], ("~d").toList]

def c4chunk : List Char := ("~^2|9|1|2|3|4").toList ++ [ETX] ++ ("XY").toList

theorem STX_ne_ETX : STX ≠ ETX := by decide

theorem ETX_ne_newline : ETX ≠ '\n' := by decide

theorem goMatch_append (p rest acc : List Char) (hE : ETX ∉ p) (hN : ('\n') ∉ p) :
    goMatch (p ++ ETX :: rest) acc = some (acc.reverse ++ p ++ [ETX], rest) := by
  induction p generalizing acc with
  | nil => simp [goMatch]
  | cons c p ih =>
    simp only [List.mem_cons, not_or] at hE hN
    simp only [List.cons_append, goMatch, if_neg (Ne.symm hE.1), if_neg (Ne.symm hN.1),
      List.append_eq]
    rw [ih (c :: acc) hE.2 hN.2]
    simp

theorem goMatch_some (l acc m rest : List Char) (h : goMatch l acc = some (m, rest)) :
    ∃ p, l = p ++ ETX :: rest ∧ ETX ∉ p ∧ ('\n') ∉ p ∧ m = acc.reverse ++ p ++ [ETX] := by
  induction l generalizing acc with
  | nil => simp [goMatch] at h
  | cons c l ih =>
    by_cases hc1 : c = ETX
    · subst hc1
      simp [goMatch] at h
      exact ⟨[], by simp [h.2], by simp, by simp, by simp [← h.1]⟩
    · by_cases hc2 : c = '\n'
      · rw [goMatch, if_neg hc1, if_pos hc2] at h
        exact absurd h (by simp)
      · rw [goMatch, if_neg hc1, if_neg hc2] at h
        obtain ⟨p, hl, hE, hN, hm⟩ := ih (c :: acc) h
        refine ⟨c :: p, by simp [hl], ?_, ?_, by simpa using hm⟩
        · simp only [List.mem_cons, not_or]
          exact ⟨Ne.symm hc1, hE⟩
        · simp only [List.mem_cons, not_or]
          exact ⟨Ne.symm hc2, hN⟩

theorem goMatch_none (l acc : List Char) (h : ETX ∉ l) : goMatch l acc = none := by
  induction l generalizing acc with
  | nil => rfl
  | cons c l ih =>
    simp only [List.mem_cons, not_or] at h
    by_cases hc2 : c = '\n'
    · rw [goMatch, if_neg (Ne.symm h.1), if_pos hc2]
    · rw [goMatch, if_neg (Ne.symm h.1), if_neg hc2]
      exact ih (c :: acc) h.2

theorem regexMatch_append (c : Char) (p rest : List Char) (hc : c ≠ '\n')
    (hE : ETX ∉ p) (hN : ('\n') ∉ p) :
    regexMatch (c :: p ++ ETX :: rest) = some (c :: p ++ [ETX], rest) := by
  simp only [List.cons_append, regexMatch, if_neg hc]
  rw [goMatch_append p rest [c] hE hN]
  simp

theorem regexMatch_some (l m rest : List Char) (h : regexMatch l = some (m, rest)) :
    ∃ c p, l = c :: p ++ ETX :: rest ∧ c ≠ '\n' ∧ ETX ∉ p ∧ ('\n') ∉ p ∧
      m = c :: p ++ [ETX] := by
  cases l with
  | nil => simp [regexMatch] at h
  | cons c l =>
    by_cases hc : c = '\n'
    · rw [regexMatch, if_pos hc] at h
      exact absurd h (by simp)
    · rw [regexMatch, if_neg hc] at h
      obtain ⟨p, hl, hE, hN, hm⟩ := goMatch_some l [c] m rest h
      exact ⟨c, p, by simp [hl], hc, hE, hN, by simpa using hm⟩

theorem regexMatch_none (l : List Char) (h : ETX ∉ l) : regexMatch l = none := by
  cases l with
  | nil => rfl
  | cons c l =>
    have h' : ETX ∉ l := fun hm => h (List.mem_cons_of_mem c hm)
    by_cases hc : c = '\n'
    · rw [regexMatch, if_pos hc]
    · rw [regexMatch, if_neg hc]
      exact goMatch_none l [c] h'

theorem splitAtETX_append (i a : List Char) (hE : ETX ∉ i) :
    splitAtETX (i ++ ETX :: a) = some (i, a) := by
  induction i with
  | nil => simp [splitAtETX]
  | cons c i ih =>
    simp only [List.mem_cons, not_or] at hE
    simp only [List.cons_append, splitAtETX, if_neg (Ne.symm hE.1), List.append_eq]
    rw [ih hE.2]
    rfl

theorem splitAtETX_some (l i a : List Char) (h : splitAtETX l = some (i, a)) :
    l = i ++ ETX :: a ∧ ETX ∉ i := by
  induction l generalizing i with
  | nil => simp [splitAtETX] at h
  | cons c l ih =>
    by_cases hc : c = ETX
    · subst hc
      simp only [splitAtETX, eq_self_iff_true, if_true, Option.some.injEq,
        Prod.mk.injEq] at h
      exact ⟨by simp [← h.1, ← h.2], by simp [← h.1]⟩
    · rw [splitAtETX, if_neg hc] at h
      simp only [Option.map_eq_some'] at h
      obtain ⟨⟨i', a'⟩, hsp, heq⟩ := h
      simp only [Prod.mk.injEq] at heq
      obtain ⟨hl, hE⟩ := ih i' (heq.2 ▸ hsp)
      constructor
      · rw [← heq.1]; simp [hl]
      · rw [← heq.1]
        simp only [List.mem_cons, not_or]
        exact ⟨Ne.symm hc, hE⟩

theorem splitAtETX_none (l : List Char) : splitAtETX l = none ↔ ETX ∉ l := by
  induction l with
  | nil => simp [splitAtETX]
  | cons c l ih =>
    by_cases hc : c = ETX
    · simp [splitAtETX, hc]
    · simp only [splitAtETX, if_neg hc, Option.map_eq_none', List.mem_cons, not_or, ih]
      constructor
      · exact fun h => ⟨fun h1 => hc h1.symm, h⟩
      · exact fun h => h.2

theorem regexMatch_rest_lt (l m rest : List Char) (h : regexMatch l = some (m, rest)) :
    rest.length < l.length := by
  obtain ⟨c, p, hl, -, -, -, -⟩ := regexMatch_some l m rest h
  subst hl
  simp
  omega

theorem splitAtETX_rest_lt (l i a : List Char) (h : splitAtETX l = some (i, a)) :
    a.length < l.length := by
  obtain ⟨hl, -⟩ := splitAtETX_some l i a h
  subst hl
  simp
  omega

theorem findallAux_congr (f : ℕ) : ∀ (g : ℕ) (l : List Char),
    l.length ≤ f → l.length ≤ g → findallAux f l = findallAux g l := by
  induction f with
  | zero =>
    intro g l hf _
    have : l = [] := List.length_eq_zero.mp (Nat.le_zero.mp hf)
    subst this
    cases g <;> rfl
  | succ f ih =>
    intro g l hf hg
    cases l with
    | nil => cases g <;> rfl
    | cons c rest =>
      cases g with
      | zero => simp at hg
      | succ g =>
        simp only [List.length_cons, Nat.succ_le_succ_iff] at hf hg
        by_cases hc : c = STX
        · cases hm : regexMatch rest with
          | none =>
            simp only [findallAux, if_pos hc, hm]
            exact ih g rest hf hg
          | some pr =>
            obtain ⟨m, after⟩ := pr
            have hlt := regexMatch_rest_lt rest m after hm
            simp only [findallAux, if_pos hc, hm]
            rw [ih g after (by omega) (by omega)]
        · simp only [findallAux, if_neg hc]
          exact ih g rest hf hg

theorem findall_cons_match (rest m after : List Char)
    (h : regexMatch rest = some (m, after)) :
    findall (STX :: rest) = m :: findall after := by
  have hlt := regexMatch_rest_lt rest m after h
  show findallAux (STX :: rest).length (STX :: rest) = _
  simp only [List.length_cons, findallAux, if_pos rfl, h]
  rw [findallAux_congr rest.length after.length after (by omega) (by omega)]
  rfl

theorem findall_cons_nomatch (rest : List Char) (h : regexMatch rest = none) :
    findall (STX :: rest) = findall rest := by
  show findallAux (STX :: rest).length (STX :: rest) = _
  simp only [List.length_cons, findallAux, if_pos rfl, h]
  rfl

theorem findall_cons_other (c : Char) (rest : List Char) (h : c ≠ STX) :
    findall (c :: rest) = findall rest := by
  show findallAux (c :: rest).length (c :: rest) = _
  simp only [List.length_cons, findallAux, if_neg h]
  rfl

theorem findall_no_ETX (l : List Char) (h : ETX ∉ l) : findall l = [] := by
  induction l with
  | nil => rfl
  | cons c rest ih =>
    simp only [List.mem_cons, not_or] at h
    by_cases hc : c = STX
    · subst hc
      rw [findall_cons_nomatch rest (regexMatch_none rest h.2)]
      exact ih h.2
    · rw [findall_cons_other c rest hc]
      exact ih h.2

theorem findall_no_STX (l : List Char) (h : STX ∉ l) : findall l = [] := by
  induction l with
  | nil => rfl
  | cons c rest ih =>
    simp only [List.mem_cons, not_or] at h
    rw [findall_cons_other c rest (fun hc => h.1 hc.symm)]
    exact ih h.2

theorem spansSpecAux_congr (f : ℕ) : ∀ (g : ℕ) (l : List Char),
    l.length ≤ f → l.length ≤ g → spansSpecAux f l = spansSpecAux g l := by
  induction f with
  | zero =>
    intro g l hf _
    have : l = [] := List.length_eq_zero.mp (Nat.le_zero.mp hf)
    subst this
    cases g <;> rfl
  | succ f ih =>
    intro g l hf hg
    cases l with
    | nil => cases g <;> rfl
    | cons c rest =>
      cases g with
      | zero => simp at hg
      | succ g =>
        simp only [List.length_cons, Nat.succ_le_succ_iff] at hf hg
        by_cases hc : c = STX
        · cases hm : splitAtETX rest with
          | none => simp only [spansSpecAux, if_pos hc, hm]
          | some pr =>
            obtain ⟨i, after⟩ := pr
            have hlt := splitAtETX_rest_lt rest i after hm
            simp only [spansSpecAux, if_pos hc, hm]
            rw [ih g after (by omega) (by omega)]
        · simp only [spansSpecAux, if_neg hc]
          exact ih g rest hf hg

theorem spansSpec_cons_span (rest i after : List Char)
    (h : splitAtETX rest = some (i, after)) :
    spansSpec (STX :: rest) = i :: spansSpec after := by
  have hlt := splitAtETX_rest_lt rest i after h
  show spansSpecAux (STX :: rest).length (STX :: rest) = _
  simp only [List.length_cons, spansSpecAux, if_pos rfl, h]
  rw [spansSpecAux_congr rest.length after.length after (by omega) (by omega)]
  rfl

theorem spansSpec_cons_none (rest : List Char) (h : splitAtETX rest = none) :
    spansSpec (STX :: rest) = [] := by
  show spansSpecAux (STX :: rest).length (STX :: rest) = _
  simp only [List.length_cons, spansSpecAux, if_pos rfl, h, eq_self_iff_true, if_true]

theorem spansSpec_cons_other (c : Char) (rest : List Char) (h : c ≠ STX) :
    spansSpec (c :: rest) = spansSpec rest := by
  show spansSpecAux (c :: rest).length (c :: rest) = _
  simp only [List.length_cons, spansSpecAux, if_neg h]
  rfl

theorem spansSpec_no_ETX (l : List Char) (h : ETX ∉ l) : spansSpec l = [] := by
  induction l with
  | nil => rfl
  | cons c rest ih =>
    simp only [List.mem_cons, not_or] at h
    by_cases hc : c = STX
    · subst hc
      exact spansSpec_cons_none rest ((splitAtETX_none rest).mpr h.2)
    · rw [spansSpec_cons_other c rest hc]
      exact ih h.2

theorem takeWhile_append_all {p : Char → Bool} (xs ys : List Char)
    (h : ∀ a ∈ xs, p a = true) :
    (xs ++ ys).takeWhile p = xs ++ ys.takeWhile p := by
  induction xs with
  | nil => simp
  | cons c xs ih =>
    have hc := h c (List.mem_cons_self c xs)
    simp [List.takeWhile_cons, hc, ih (fun a ha => h a (List.mem_cons_of_mem c ha))]

theorem takeWhile_append_stop {p : Char → Bool} (xs ys : List Char)
    (h : ∃ a ∈ xs, ¬ p a = true) :
    (xs ++ ys).takeWhile p = xs.takeWhile p := by
  induction xs with
  | nil => simp at h
  | cons c xs ih =>
    by_cases hc : p c = true
    · obtain ⟨a, ha, hpa⟩ := h
      rcases List.mem_cons.mp ha with h1 | h2
      · exact absurd (h1 ▸ hc) hpa
      · simp [List.takeWhile_cons, hc, ih ⟨a, h2, hpa⟩]
    · simp [List.takeWhile_cons, hc]

theorem afterLastETX_no_ETX (l : List Char) : ETX ∉ afterLastETX l := by
  intro h
  have h2 : ETX ∈ l.reverse.takeWhile (fun c => c ≠ ETX) := by
    simpa [afterLastETX] using h
  have := List.mem_takeWhile_imp h2
  simp at this

theorem bufferRemainder_no_ETX (l : List Char) : ETX ∉ bufferRemainder l := by
  unfold bufferRemainder
  by_cases h : ETX ∈ l
  · simpa [if_pos h] using afterLastETX_no_ETX l
  · simpa [if_neg h] using h

theorem bufferRemainder_of_no_ETX (l : List Char) (h : ETX ∉ l) :
    bufferRemainder l = l := by
  simp [bufferRemainder, if_neg h]

theorem bufferRemainder_append_right (P c : List Char) (h : ETX ∈ c) :
    bufferRemainder (P ++ c) = bufferRemainder c := by
  have hPc : ETX ∈ P ++ c := List.mem_append_right P h
  have hrev : ETX ∈ c.reverse := List.mem_reverse.mpr h
  have hstop : ∃ a ∈ c.reverse, ¬ ((fun x => decide (x ≠ ETX)) a = true) := by
    exact ⟨ETX, hrev, by simp⟩
  simp only [bufferRemainder, if_pos hPc, if_pos h, afterLastETX, List.reverse_append]
  rw [takeWhile_append_stop c.reverse P.reverse hstop]

theorem bufferRemainder_append_left (P c : List Char) (h : ETX ∉ c) :
    bufferRemainder (P ++ c) = bufferRemainder P ++ c := by
  by_cases hP : ETX ∈ P
  · have hPc : ETX ∈ P ++ c := List.mem_append_left c hP
    have hall : ∀ a ∈ c.reverse, ((fun x => decide (x ≠ ETX)) a = true) := by
      intro a ha
      simp only [decide_eq_true_eq]
      exact fun he => h (he ▸ List.mem_reverse.mp ha)
    simp only [bufferRemainder, if_pos hPc, if_pos hP, afterLastETX, List.reverse_append]
    rw [takeWhile_append_all c.reverse P.reverse hall]
    simp
  · have hPc : ETX ∉ P ++ c := by
      simp only [List.mem_append, not_or]
      exact ⟨hP, h⟩
    rw [bufferRemainder_of_no_ETX _ hPc, bufferRemainder_of_no_ETX _ hP]

theorem bufferRemainder_comp (P c : List Char) :
    bufferRemainder (bufferRemainder P ++ c) = bufferRemainder (P ++ c) := by
  by_cases h : ETX ∈ c
  · rw [bufferRemainder_append_right _ c h, bufferRemainder_append_right P c h]
  · rw [bufferRemainder_append_left _ c h, bufferRemainder_append_left P c h,
      bufferRemainder_of_no_ETX _ (bufferRemainder_no_ETX P)]

theorem bufferRemainder_etx_cons (a : List Char) :
    bufferRemainder (ETX :: a) = bufferRemainder a := by
  have : ETX :: a = [ETX] ++ a := rfl
  rw [this]
  by_cases h : ETX ∈ a
  · exact bufferRemainder_append_right [ETX] a h
  · rw [bufferRemainder_append_left [ETX] a h, bufferRemainder_of_no_ETX a h]
    have h2 : bufferRemainder [ETX] = ([] : List Char) := by decide
    rw [h2]
    rfl

theorem bufferRemainder_decomp (l : List Char) (h : ETX ∈ l) :
    ∃ q, l = q ++ ETX :: bufferRemainder l := by
  have key : ∀ r : List Char, ETX ∈ r →
      ∃ s, r = r.takeWhile (fun c => c ≠ ETX) ++ ETX :: s := by
    intro r hr
    induction r with
    | nil => simp at hr
    | cons c r ih =>
      by_cases hc : c = ETX
      · subst hc
        exact ⟨r, by simp⟩
      · have hr' : ETX ∈ r := by
          rcases List.mem_cons.mp hr with h1 | h2
          · exact absurd h1.symm hc
          · exact h2
        obtain ⟨s, hs⟩ := ih hr'
        refine ⟨s, ?_⟩
        simp only [ne_eq, decide_not] at hs
        simp [List.takeWhile_cons, hc, ← hs]
  have hrev : ETX ∈ l.reverse := List.mem_reverse.mpr h
  obtain ⟨s, hs⟩ := key l.reverse hrev
  refine ⟨s.reverse, ?_⟩
  have hbuf : bufferRemainder l = (l.reverse.takeWhile (fun c => c ≠ ETX)).reverse := by
    rw [bufferRemainder, if_pos h, afterLastETX]
  rw [hbuf]
  conv_lhs => rw [← List.reverse_reverse l, hs]
  rw [List.reverse_append, List.reverse_cons, List.append_assoc]
  rfl

theorem spansSpec_split_aux : ∀ (n : ℕ) (P c : List Char), P.length ≤ n →
    spansSpec (P ++ c) = spansSpec P ++ spansSpec (bufferRemainder P ++ c) := by
  intro n
  induction n with
  | zero =>
    intro P c hP
    have : P = [] := List.length_eq_zero.mp (Nat.le_zero.mp hP)
    subst this
    have h1 : bufferRemainder ([] : List Char) = [] := by decide
    have h0 : spansSpec ([] : List Char) = [] := rfl
    simp [h0, h1]
  | succ n ih =>
    intro P c hP
    cases P with
    | nil =>
      have h1 : bufferRemainder ([] : List Char) = [] := by decide
      have h0 : spansSpec ([] : List Char) = [] := rfl
      simp [h0, h1]
    | cons ch P' =>
      simp only [List.length_cons, Nat.succ_le_succ_iff] at hP
      by_cases hch : ch = STX
      · subst hch
        cases hsp : splitAtETX P' with
        | some pr =>
          obtain ⟨i, a⟩ := pr
          obtain ⟨hP'eq, hEi⟩ := splitAtETX_some P' i a hsp
          have hlen : a.length ≤ n := by
            subst hP'eq
            simp at hP
            omega
          have hstep : (STX :: P') ++ c = STX :: (i ++ ETX :: (a ++ c)) := by
            subst hP'eq
            simp
          have hsp2 : splitAtETX (i ++ ETX :: (a ++ c)) = some (i, a ++ c) :=
            splitAtETX_append i (a ++ c) hEi
          rw [hstep, spansSpec_cons_span _ _ _ hsp2, spansSpec_cons_span _ _ _ hsp]
          have hrem : bufferRemainder (STX :: P') = bufferRemainder a := by
            subst hP'eq
            have : STX :: (i ++ ETX :: a) = (STX :: i) ++ (ETX :: a) := by simp
            rw [this, bufferRemainder_append_right _ _ (List.mem_cons_self ETX a),
              bufferRemainder_etx_cons]
          rw [hrem, List.cons_append]
          rw [ih a c hlen]
        | none =>
          have hE : ETX ∉ P' := (splitAtETX_none P').mp hsp
          have hE2 : ETX ∉ STX :: P' := by
            simp only [List.mem_cons, not_or]
            exact ⟨Ne.symm STX_ne_ETX, hE⟩
          rw [spansSpec_cons_none _ hsp, bufferRemainder_of_no_ETX _ hE2]
          simp
      · have hLHS : spansSpec ((ch :: P') ++ c) = spansSpec (P' ++ c) := by
          rw [List.cons_append, spansSpec_cons_other _ _ hch]
        have hP2 : spansSpec (ch :: P') = spansSpec P' := spansSpec_cons_other _ _ hch
        by_cases hE' : ETX ∈ P'
        · have hrem : bufferRemainder (ch :: P') = bufferRemainder P' := by
            have : ch :: P' = [ch] ++ P' := rfl
            rw [this, bufferRemainder_append_right _ _ hE']
          rw [hLHS, hP2, hrem, ih P' c hP]
        · by_cases hch2 : ch = ETX
          · subst hch2
            have hrem : bufferRemainder (ETX :: P') = P' := by
              rw [bufferRemainder_etx_cons, bufferRemainder_of_no_ETX _ hE']
            rw [hLHS, hP2, hrem, spansSpec_no_ETX _ hE']
            simp [spansSpec_cons_other _ _ hch]
          · have hE2 : ETX ∉ ch :: P' := by
              simp only [List.mem_cons, not_or]
              exact ⟨fun hx => hch2 hx.symm, hE'⟩
            rw [hLHS, hP2, bufferRemainder_of_no_ETX _ hE2, spansSpec_no_ETX _ hE']
            simp [List.cons_append, spansSpec_cons_other _ _ hch]

theorem spansSpec_split (P c : List Char) :
    spansSpec (P ++ c) = spansSpec P ++ spansSpec (bufferRemainder P ++ c) :=
  spansSpec_split_aux P.length P c le_rfl

theorem allSpansOK_append_left (X Y : List Char) (h : allSpansOK (X ++ Y)) :
    allSpansOK X := by
  intro s hs
  exact h s (by rw [spansSpec_split X Y]; exact List.mem_append_left _ hs)

theorem allSpansOK_rem_append (P c : List Char) (h : allSpansOK (P ++ c)) :
    allSpansOK (bufferRemainder P ++ c) := by
  intro s hs
  exact h s (by rw [spansSpec_split P c]; exact List.mem_append_right _ hs)

theorem findall_spans_aux : ∀ (n : ℕ) (l : List Char), l.length ≤ n → allSpansOK l →
    (findall l).map List.dropLast = spansSpec l := by
  intro n
  induction n with
  | zero =>
    intro l hl _
    have : l = [] := List.length_eq_zero.mp (Nat.le_zero.mp hl)
    subst this
    rfl
  | succ n ih =>
    intro l hl hOK
    cases l with
    | nil => rfl
    | cons c rest =>
      simp only [List.length_cons, Nat.succ_le_succ_iff] at hl
      by_cases hc : c = STX
      · subst hc
        cases hsp : splitAtETX rest with
        | some pr =>
          obtain ⟨i, a⟩ := pr
          have hspan := spansSpec_cons_span rest i a hsp
          have hOKi : i ≠ [] ∧ ('\n') ∉ i :=
            hOK i (by rw [hspan]; exact List.mem_cons_self i _)
          have hOKa : allSpansOK a := fun s hs =>
            hOK s (by rw [hspan]; exact List.mem_cons_of_mem i hs)
          obtain ⟨hrest, hEi⟩ := splitAtETX_some rest i a hsp
          cases i with
          | nil => exact absurd rfl hOKi.1
          | cons c0 p =>
            simp only [List.mem_cons, not_or] at hOKi hEi
            have hc0 : c0 ≠ '\n' := fun hx => hOKi.2.1 hx.symm
            have hrm : regexMatch rest = some (c0 :: p ++ [ETX], a) := by
              rw [hrest]
              simp only [List.cons_append]
              exact regexMatch_append c0 p a hc0 hEi.2 hOKi.2.2
            rw [findall_cons_match rest _ a hrm, hspan]
            simp only [List.map_cons]
            have hdl : (c0 :: p ++ [ETX]).dropLast = c0 :: p := by
              have : c0 :: p ++ [ETX] = (c0 :: p) ++ [ETX] := by simp
              rw [this, List.dropLast_concat]
            rw [hdl]
            have hlen : a.length ≤ n := by
              rw [hrest] at hl
              simp at hl
              omega
            rw [ih a hlen hOKa]
        | none =>
          have hE : ETX ∉ rest := (splitAtETX_none rest).mp hsp
          rw [findall_cons_nomatch rest (regexMatch_none rest hE),
            findall_no_ETX rest hE, spansSpec_cons_none rest hsp]
          rfl
      · have htr : spansSpec (c :: rest) = spansSpec rest := spansSpec_cons_other c rest hc
        rw [findall_cons_other c rest hc, htr]
        exact ih rest hl (fun s hs => hOK s (htr ▸ hs))

theorem findall_spans (l : List Char) (h : allSpansOK l) :
    (findall l).map List.dropLast = spansSpec l :=
  findall_spans_aux l.length l le_rfl h

theorem foldl_push {α : Type} (l : List α) (init : List α) :
    l.foldl (fun a p => a ++ [p]) init = init ++ l := by
  induction l generalizing init with
  | nil => simp
  | cons c l ih => simp [List.foldl_cons, ih]

theorem feedChunk_eq (st : List (List Char) × List Char) (c : List Char) :
    feedChunk st c =
      (st.1 ++ (process_buffer (st.2 ++ c)).1, (process_buffer (st.2 ++ c)).2) := by
  unfold feedChunk
  rw [foldl_push]

theorem runChunks_aux : ∀ (cs : List (List Char)) (P : List Char)
    (acc : List (List Char)), allSpansOK (P ++ cs.flatten) →
    cs.foldl feedChunk (acc, bufferRemainder P) =
      (acc ++ spansSpec (bufferRemainder P ++ cs.flatten),
       bufferRemainder (P ++ cs.flatten)) := by
  intro cs
  induction cs with
  | nil =>
    intro P acc _
    have h1 : spansSpec (bufferRemainder P) = [] :=
      spansSpec_no_ETX _ (bufferRemainder_no_ETX P)
    simp [h1]
  | cons ch cs ih =>
    intro P acc h
    have hassoc : P ++ (ch :: cs).flatten = (P ++ ch) ++ cs.flatten := by
      simp
    rw [hassoc] at h
    have hPc : allSpansOK (P ++ ch) := allSpansOK_append_left _ _ h
    have hX : allSpansOK (bufferRemainder P ++ ch) := allSpansOK_rem_append P ch hPc
    have hpay : (process_buffer (bufferRemainder P ++ ch)).1 =
        spansSpec (bufferRemainder P ++ ch) := by
      show (findall _).map List.dropLast = _
      exact findall_spans _ hX
    have hrem2 : (process_buffer (bufferRemainder P ++ ch)).2 =
        bufferRemainder (P ++ ch) := by
      show bufferRemainder _ = _
      exact bufferRemainder_comp P ch
    rw [List.foldl_cons, feedChunk_eq, hpay, hrem2, ih (P ++ ch) _ h]
    have hsp : spansSpec (bufferRemainder P ++ (ch :: cs).flatten) =
        spansSpec (bufferRemainder P ++ ch) ++
          spansSpec (bufferRemainder (P ++ ch) ++ cs.flatten) := by
      have h2 : bufferRemainder P ++ (ch :: cs).flatten =
          (bufferRemainder P ++ ch) ++ cs.flatten := by simp
      rw [h2, spansSpec_split (bufferRemainder P ++ ch) cs.flatten,
        bufferRemainder_comp P ch]
    rw [hsp, hassoc]
    simp [List.append_assoc]

theorem findall_mem_structure : ∀ (n : ℕ) (l m : List Char), l.length ≤ n →
    m ∈ findall l → ∃ c0 p, m = c0 :: p ++ [ETX] := by
  intro n
  induction n with
  | zero =>
    intro l m hl hm
    have : l = [] := List.length_eq_zero.mp (Nat.le_zero.mp hl)
    subst this
    simp [findall, findallAux] at hm
  | succ n ih =>
    intro l m hl hm
    cases l with
    | nil => simp [findall, findallAux] at hm
    | cons c rest =>
      simp only [List.length_cons, Nat.succ_le_succ_iff] at hl
      by_cases hc : c = STX
      · subst hc
        cases hrm : regexMatch rest with
        | some pr =>
          obtain ⟨m0, after⟩ := pr
          rw [findall_cons_match rest m0 after hrm] at hm
          rcases List.mem_cons.mp hm with h1 | h2
          · obtain ⟨c0, p, -, -, -, -, hm0⟩ := regexMatch_some rest m0 after hrm
            exact ⟨c0, p, h1 ▸ hm0⟩
          · have hlt := regexMatch_rest_lt rest m0 after hrm
            exact ih after m (by omega) h2
        | none =>
          rw [findall_cons_nomatch rest hrm] at hm
          exact ih rest m hl hm
      · rw [findall_cons_other c rest hc] at hm
        exact ih rest m hl hm

theorem payload_nonempty (buf p : List Char) (h : p ∈ (process_buffer buf).1) :
    p ≠ [] := by
  simp only [process_buffer, List.mem_map] at h
  obtain ⟨m, hm, hp⟩ := h
  obtain ⟨c0, q, hms⟩ := findall_mem_structure buf.length buf m le_rfl hm
  subst hms
  rw [← hp]
  have : c0 :: q ++ [ETX] = (c0 :: q) ++ [ETX] := by simp
  rw [this, List.dropLast_concat]
  simp

theorem runCandidates_err (cs : List (List Char)) (cand : List Char)
    (hmem : cand ∈ cs) (herr : processRawPose cand.dropLast = .err) :
    (runCandidates cs).2 = true := by
  induction cs with
  | nil => simp at hmem
  | cons c rest ih =>
    rcases List.mem_cons.mp hmem with h1 | h2
    · subst h1
      simp [runCandidates, herr]
    · cases hpr : processRawPose c.dropLast with
      | err => simp [runCandidates, hpr]
      | dropped => simpa [runCandidates, hpr] using ih h2
      | ok ps => simpa [runCandidates, hpr] using ih h2

theorem runCandidates_no_err (cs : List (List Char))
    (h : ∀ cand ∈ cs, processRawPose cand.dropLast ≠ .err) :
    runCandidates cs = (cs.filterMap okOf, false) := by
  induction cs with
  | nil => rfl
  | cons c rest ih =>
    have hc := h c (List.mem_cons_self c rest)
    have hrest : ∀ cand ∈ rest, processRawPose cand.dropLast ≠ .err :=
      fun cand hm => h cand (List.mem_cons_of_mem c hm)
    cases hpr : processRawPose c.dropLast with
    | err => exact absurd hpr hc
    | dropped =>
      simp only [runCandidates, hpr, List.filterMap_cons, okOf, hpr]
      exact ih hrest
    | ok ps =>
      simp only [runCandidates, hpr, List.filterMap_cons, okOf, hpr]
      rw [ih hrest]

theorem awaitEcho_ok_iff (cmd e : List Char) : ∀ (rs : List (Option Char)) (a : List Char),
    awaitEcho cmd e a rs = .ok ↔
      ∃ n, n ≤ rs.length ∧ (∀ r ∈ rs.take n, r.isSome = true) ∧
        tailMatches (a ++ (rs.take n).filterMap id) e := by
  intro rs
  induction rs with
  | nil =>
    intro a
    by_cases h : tailMatches a e
    · simp only [awaitEcho, if_pos h]
      constructor
      · intro _
        exact ⟨0, by simp, by simp, by simpa using h⟩
      · intro _
        trivial
    · simp only [awaitEcho, if_neg h]
      constructor
      · intro hcon
        exact absurd hcon (by simp)
      · rintro ⟨n, hn, -, hmatch⟩
        have : n = 0 := Nat.le_zero.mp (by simpa using hn)
        subst this
        simp only [List.take_nil, List.take_zero, List.filterMap_nil,
          List.append_nil] at hmatch
        exact absurd hmatch h
  | cons r rs ih =>
    intro a
    cases r with
    | some c =>
      by_cases h : tailMatches a e
      · simp only [awaitEcho, if_pos h]
        constructor
        · intro _
          exact ⟨0, by simp, by simp, by simpa using h⟩
        · intro _
          trivial
      · simp only [awaitEcho, if_neg h]
        rw [ih (a ++ [c])]
        constructor
        · rintro ⟨n, hn, hsome, hmatch⟩
          refine ⟨n + 1, by simpa using hn, ?_, ?_⟩
          · intro x hx
            simp only [List.take_succ_cons, List.mem_cons] at hx
            rcases hx with h1 | h2
            · simp [h1]
            · exact hsome x h2
          · simp only [List.take_succ_cons, List.filterMap_cons, id]
            simpa [List.append_assoc] using hmatch
        · rintro ⟨n, hn, hsome, hmatch⟩
          cases n with
          | zero =>
            simp only [List.take_zero, List.filterMap_nil, List.append_nil] at hmatch
            exact absurd hmatch h
          | succ m =>
            refine ⟨m, by simpa using hn, ?_, ?_⟩
            · intro x hx
              exact hsome x (by simp [List.take_succ_cons, hx])
            · simp only [List.take_succ_cons, List.filterMap_cons, id] at hmatch
              simpa [List.append_assoc] using hmatch
    | none =>
      by_cases h : tailMatches a e
      · simp only [awaitEcho, if_pos h]
        constructor
        · intro _
          exact ⟨0, by simp, by simp, by simpa using h⟩
        · intro _
          trivial
      · simp only [awaitEcho, if_neg h]
        constructor
        · intro hcon
          exact absurd hcon (by simp)
        · rintro ⟨n, hn, hsome, hmatch⟩
          cases n with
          | zero =>
            simp only [List.take_zero, List.filterMap_nil, List.append_nil] at hmatch
            exact absurd hmatch h
          | succ m =>
            have : (none : Option Char) ∈ (none :: rs).take (m + 1) := by
              simp [List.take_succ_cons]
            have hbad := hsome none this
            simp at hbad

theorem tailMatches_append_self (noise e : List Char) : tailMatches (noise ++ e) e := by
  show (noise ++ e).drop ((noise ++ e).length - e.length) = e
  have h1 : (noise ++ e).length - e.length = noise.length := by
    simp
  rw [h1, List.drop_left]

theorem local_to_global_foldl {α : Type} [Mul α] [Inv α] (mm : String → Option α) :
    ∀ (lp : List (ℤ × α)) (g0 : List (String × α)) (u0 : Finset String),
    lp.foldl
      (fun st p =>
        match mm (intToKey p.1) with
        | some m2m => (st.1 ++ [(intToKey p.1, m2m * p.2⁻¹)], st.2)
        | none => (st.1, insert (intToKey p.1) st.2))
      (g0, u0) =
    (g0 ++ lp.filterMap
        (fun p => (mm (intToKey p.1)).map (fun g => (intToKey p.1, g * p.2⁻¹))),
     u0 ∪ (lp.filterMap
        (fun p =>
          match mm (intToKey p.1) with
          | none => some (intToKey p.1)
          | some _ => none)).toFinset) := by
  intro lp
  induction lp with
  | nil =>
    intro g0 u0
    simp
  | cons p lp ih =>
    intro g0 u0
    cases hm : mm (intToKey p.1) with
    | some g =>
      simp only [List.foldl_cons, hm, List.filterMap_cons, Option.map_some']
      rw [ih]
      simp [List.append_assoc]
    | none =>
      simp only [List.foldl_cons, hm, List.filterMap_cons, Option.map_none']
      rw [ih]
      simp [Finset.union_insert, Finset.insert_union]

theorem local_to_global_eq {α : Type} [Mul α] [Inv α] (mm : String → Option α)
    (lp : List (ℤ × α)) :
    local_to_global mm lp =
      (lp.filterMap
        (fun p => (mm (intToKey p.1)).map (fun g => (intToKey p.1, g * p.2⁻¹))),
       (lp.filterMap
        (fun p =>
          match mm (intToKey p.1) with
          | none => some (intToKey p.1)
          | some _ => none)).toFinset) := by
  unfold local_to_global
  rw [local_to_global_foldl]
  simp

theorem awaitEcho_ok_of_match (cmd e a : List Char) (rs : List (Option Char))
    (h : tailMatches a e) : awaitEcho cmd e a rs = .ok := by
  cases rs with
  | nil => simp [awaitEcho, if_pos h]
  | cons r rest => cases r <;> simp [awaitEcho, if_pos h]

/-- C1 counterexample: decoding the spec test payload
`^1|148|-175.91|+98.74|+7.10|182.39` does NOT yield an observation for
marker 148: the delimiter after the count digit makes the field count
six instead of five, so the frame is dropped, and a read step on the
wrapped frame delivers nothing. -/
theorem c1_counterexample :
    processRawPose c1payload = PoseOutcome.dropped ∧
    readStep [] (STX :: c1payload ++ [ETX]) = ([], [], false) := by
  decide

theorem parseFloat_neg (r : List Char) (q : ℚ) (h : parseFloatMag r = some q) :
    parseFloat ('-' :: r) = some (-q) := by
  simp [parseFloat, h]

theorem parseFloat_plus (r : List Char) (q : ℚ) (h : parseFloatMag r = some q) :
    parseFloat ('+' :: r) = some q := by
  simp [parseFloat, h]

theorem parseFloat_digit (c : Char) (r : List Char) (q : ℚ) (hc1 : c ≠ '-')
    (hc2 : c ≠ '+') (h : parseFloatMag (c :: r) = some q) :
    parseFloat (c :: r) = some q := by
  simp [parseFloat, if_neg hc1, if_neg hc2, h]

theorem parseFloatMag_point (l a b : List Char) (n : ℕ)
    (h1 : splitOnChar ('.') l = [a, b])
    (h2 : ¬(a.isEmpty = true ∧ b.isEmpty = true))
    (h3 : digitsAux 0 (a ++ b) = some n) :
    parseFloatMag l = some ((n : ℚ) / 10 ^ b.length) := by
  simp only [parseFloatMag, h1, h3]
  rw [if_neg (by simpa using h2)]

theorem parseFloat_eval1 :
    parseFloat ['-', '1', '7', '5', '.', '9', '1'] = some (-175.91 : ℚ) := by
  have e1 : parseFloatMag ['1', '7', '5', '.', '9', '1'] =
      some ((17591 : ℚ) / 10 ^ 2) := by
    have := parseFloatMag_point ['1', '7', '5', '.', '9', '1'] ['1', '7', '5'] ['9', '1']
      17591 (by decide) (by decide) (by decide)
    simpa using this
  rw [parseFloat_neg _ _ e1]
  norm_num

theorem parseFloat_eval2 :
    parseFloat ['+', '9', '8', '.', '7', '4'] = some (98.74 : ℚ) := by
  have e1 : parseFloatMag ['9', '8', '.', '7', '4'] = some ((9874 : ℚ) / 10 ^ 2) := by
    have := parseFloatMag_point ['9', '8', '.', '7', '4'] ['9', '8'] ['7', '4']
      9874 (by decide) (by decide) (by decide)
    simpa using this
  rw [parseFloat_plus _ _ e1]
  norm_num

theorem parseFloat_eval3 :
    parseFloat ['+', '7', '.', '1', '0'] = some (7.10 : ℚ) := by
  have e1 : parseFloatMag ['7', '.', '1', '0'] = some ((710 : ℚ) / 10 ^ 2) := by
    have := parseFloatMag_point ['7', '.', '1', '0'] ['7'] ['1', '0']
      710 (by decide) (by decide) (by decide)
    simpa using this
  rw [parseFloat_plus _ _ e1]
  norm_num

theorem parseFloat_eval4 :
    parseFloat ['1', '8', '2', '.', '3', '9'] = some (182.39 : ℚ) := by
  have e1 : parseFloatMag ['1', '8', '2', '.', '3', '9'] =
      some ((18239 : ℚ) / 10 ^ 2) := by
    have := parseFloatMag_point ['1', '8', '2', '.', '3', '9'] ['1', '8', '2'] ['3', '9']
      18239 (by decide) (by decide) (by decide)
    simpa using this
  rw [parseFloat_digit '1' _ _ (by decide) (by decide) e1]
  norm_num

theorem parseInt_eval1 : parseInt ['1', '4', '8'] = some (148 : ℤ) := by decide

/-- C1 (amended): decoding `^1148|-175.91|+98.74|+7.10|182.39` (count
digit immediately followed by the first field, no delimiter, as in the
source docstring) yields exactly one observation, for marker id 148,
with yaw field -175.91 degrees (the stored rotation angle is
`-radians(-175.91)`), x = 0.9874 m, y = 0.0710 m, z = -1.8239 m after
the documented unit and sign conversions, and its stored transform is
the matrix inverse of the corresponding homogeneous transform. -/
theorem c1_amended_decode :
    processRawPose (("^1148|-175.91|+98.74|+7.10|182.39").toList) =
      PoseOutcome.ok [(148, ⟨-175.91, 0.9874, 0.071, -1.8239⟩)] ∧
    obsTransform ⟨-175.91, 0.9874, 0.071, -1.8239⟩ =
      (fourdof_to_matrix ((0.9874 : ℝ), 0.071, -1.8239)
        (-((-175.91 : ℝ) * Real.pi / 180)))⁻¹ := by
  constructor
  · have e0 : ("^1148|-175.91|+98.74|+7.10|182.39").toList =
        '^' :: '1' :: ("148|-175.91|+98.74|+7.10|182.39").toList := by decide
    have e1 : parseDigit '1' = some 1 := by decide
    have e2 : splitOnChar DELIM (("148|-175.91|+98.74|+7.10|182.39").toList) =
        [("148").toList, ("-175.91").toList, ("+98.74").toList, ("+7.10").toList,
         ("182.39").toList] := by decide
    rw [e0]
    simp only [processRawPose, e1, e2]
    norm_num [decodeMarkers, parseInt_eval1, parseFloat_eval1, parseFloat_eval2,
      parseFloat_eval3, parseFloat_eval4, ObsQ.mk.injEq]
  · have hx : (((0.9874 : ℚ)) : ℝ) = 0.9874 := by norm_num
    have hy : (((0.071 : ℚ)) : ℝ) = 0.071 := by norm_num
    have hz : (((-1.8239 : ℚ)) : ℝ) = -1.8239 := by norm_num
    have hw : (((-175.91 : ℚ)) : ℝ) = -175.91 := by norm_num
    simp only [obsTransform, hx, hy, hz, hw]

/-- C2 counterexample: on the buffer `~a\nb` + ETX the claim fails: the
span interior `a\nb` exists, but the extractor yields no payload at all
because the regex dot does not match the newline byte. -/
theorem c2_counterexample :
    (process_buffer c2bad).1 = [] ∧ spansSpec c2bad = [['a', '\n', 'b']] ∧
    (process_buffer c2bad).1 ≠ spansSpec c2bad := by decide

/-- C2 (amended): for every byte buffer in which each STX-to-ETX span
interior is non-empty and newline-free, one pass of the frame extractor
yields the interior bytes of all non-overlapping spans, left to right,
ETX excluded; unconditionally, when an ETX is present the returned
remaining buffer is exactly the bytes after the last ETX, and a buffer
with no ETX is returned unchanged with no payloads. -/
theorem c2_amended_extractor (buf : List Char) :
    (allSpansOK buf → (process_buffer buf).1 = spansSpec buf) ∧
    (ETX ∈ buf → ∃ q, buf = q ++ ETX :: (process_buffer buf).2 ∧
      ETX ∉ (process_buffer buf).2) ∧
    (ETX ∉ buf → process_buffer buf = ([], buf)) := by
  refine ⟨fun h => findall_spans buf h, fun h => ?_, fun h => ?_⟩
  · obtain ⟨q, hq⟩ := bufferRemainder_decomp buf h
    exact ⟨q, hq, bufferRemainder_no_ETX buf⟩
  · unfold process_buffer
    rw [findall_no_ETX buf h, bufferRemainder_of_no_ETX buf h]
    rfl

/-- C2 witness: the amended claim applied to the concrete buffer
`x~ab` + ETX + `yz`. -/
theorem c2_amended_witness :
    (process_buffer c2good).1 = spansSpec c2good ∧
    (∃ q, c2good = q ++ ETX :: (process_buffer c2good).2 ∧
      ETX ∉ (process_buffer c2good).2) :=
  ⟨(c2_amended_extractor c2good).1 (by decide),
   (c2_amended_extractor c2good).2.1 (by decide)⟩

/-- C3 counterexample: chunking invariance fails on the chunks
[STX ETX, `a` ETX]: fed at once the extractor yields the payload
ETX-`a`, fed in these two chunks it yields nothing, because the first
pass discards the STX of the empty frame. -/
theorem c3_counterexample :
    (runChunks c3chunks).1 = [] ∧
    (process_buffer c3chunks.flatten).1 = [[ETX, 'a']] ∧
    (runChunks c3chunks).1 ≠ (process_buffer c3chunks.flatten).1 := by decide

/-- C3 (amended): for every byte sequence in which each STX-to-ETX span
interior is non-empty and newline-free, and for every way of splitting
it into chunks, feeding the chunks through the extractor with the
carried-over remainder produces the same payload sequence and the same
final buffer as one pass over the whole sequence. -/
theorem c3_amended_chunking (chunks : List (List Char))
    (h : allSpansOK chunks.flatten) :
    (runChunks chunks).1 = (process_buffer chunks.flatten).1 ∧
    (runChunks chunks).2 = (process_buffer chunks.flatten).2 := by
  have h0 : bufferRemainder ([] : List Char) = [] := by decide
  have key := runChunks_aux chunks [] [] (by simpa using h)
  rw [h0] at key
  have hpay : (process_buffer chunks.flatten).1 = spansSpec chunks.flatten :=
    findall_spans chunks.flatten h
  constructor
  · show (chunks.foldl feedChunk ([], [])).1 = _
    rw [key, hpay]
    simp
  · show (chunks.foldl feedChunk ([], [])).2 = _
    rw [key]
    show bufferRemainder ([] ++ chunks.flatten) = bufferRemainder chunks.flatten
    simp

/-- C3 witness: the amended chunking invariance at a concrete four-chunk
split with frames straddling the chunk boundaries. -/
theorem c3_amended_witness :
    (runChunks c3wchunks).1 = (process_buffer c3wchunks.flatten).1 :=
  (c3_amended_chunking c3wchunks (by decide)).1

/-- C4 counterexample: the marker-count-2, six-field payload is dropped
with no exception, the read loop continues, and the message buffer is
NOT reset to empty: the bytes `XY` after the last ETX are retained. -/
theorem c4_counterexample :
    processRawPose (("^2|9|1|2|3|4").toList) = PoseOutcome.dropped ∧
    readStep [] c4chunk = ([], ("XY").toList, false) ∧
    (readStep [] c4chunk).2.1 ≠ [] := by decide

/-- C4 (amended): a payload whose delimiter-separated field count
differs from five per declared marker is dropped by the decoder with a
logged error and no exception: nothing is decoded for it and no callback
is invoked for that frame; the message buffer is not reset but keeps
exactly the bytes after the last ETX, and the read loop continues. -/
theorem c4_amended_malformed :
    (∀ (c0 c1 : Char) (rest : List Char) (n : ℕ), parseDigit c1 = some n →
      (splitOnChar DELIM rest).length ≠ n * 5 →
      processRawPose (c0 :: c1 :: rest) = PoseOutcome.dropped) ∧
    (∀ buf chunk : List Char,
      (∀ cand ∈ findall (buf ++ chunk),
        processRawPose cand.dropLast = PoseOutcome.dropped) →
      readStep buf chunk = ([], bufferRemainder (buf ++ chunk), false)) := by
  constructor
  · intro c0 c1 rest n h1 h2
    simp [processRawPose, h1, h2]
  · intro buf chunk hall
    have h1 : runCandidates (findall (buf ++ chunk)) =
        ((findall (buf ++ chunk)).filterMap okOf, false) :=
      runCandidates_no_err _ (fun cand hm => by rw [hall cand hm]; simp)
    have h2 : (findall (buf ++ chunk)).filterMap okOf = [] := by
      rw [List.filterMap_eq_nil_iff]
      intro cand hm
      unfold okOf
      rw [hall cand hm]
    simp only [readStep, h1, h2]
    rfl

/-- C4 witness: the amended claim applied to the concrete marker-count-2,
six-field payload of the claim and to a read chunk carrying it. -/
theorem c4_amended_witness :
    processRawPose ('^' :: '2' :: ("|9|1|2|3|4").toList) = PoseOutcome.dropped ∧
    readStep [] c4chunk = ([], bufferRemainder ([] ++ c4chunk), false) :=
  ⟨c4_amended_malformed.1 '^' '2' (("|9|1|2|3|4").toList) 2 (by decide) (by decide),
   c4_amended_malformed.2 [] c4chunk (by decide)⟩

/-- C5: for every well-formed per-marker field 5-tuple
(id, yaw_deg, x_cm, y_cm, z_cm), the stored observation transform is
the matrix inverse of the homogeneous transform whose rotation is about
the z axis by `-radians(yaw_deg)` and whose translation is
(0.01 x, 0.01 y, -0.01 z). -/
theorem c5_marker_transform (f0 f1 f2 f3 f4 : List Char) (id : ℤ) (yaw x y z : ℚ)
    (h0 : parseInt f0 = some id) (h1 : parseFloat f1 = some yaw)
    (h2 : parseFloat f2 = some x) (h3 : parseFloat f3 = some y)
    (h4 : parseFloat f4 = some z) :
    decodeMarkers [f0, f1, f2, f3, f4] =
      some [(id, ⟨yaw, x * 0.01, y * 0.01, -(z * 0.01)⟩)] ∧
    obsTransform ⟨yaw, x * 0.01, y * 0.01, -(z * 0.01)⟩ =
      (fourdof_to_matrix (0.01 * (x : ℝ), 0.01 * (y : ℝ), -(0.01 * (z : ℝ)))
        (-((yaw : ℝ) * Real.pi / 180)))⁻¹ := by
  constructor
  · simp [decodeMarkers, h0, h1, h2, h3, h4]
  · have hx : ((x * 0.01 : ℚ) : ℝ) = 0.01 * (x : ℝ) := by push_cast; ring
    have hy : ((y * 0.01 : ℚ) : ℝ) = 0.01 * (y : ℝ) := by push_cast; ring
    have hz : ((-(z * 0.01) : ℚ) : ℝ) = -(0.01 * (z : ℝ)) := by push_cast; ring
    simp only [obsTransform, hx, hy, hz]

/-- C5 witness: the transform claim at the concrete field tuple
(148, -175.91, +98.74, +7.10, 182.39). -/
theorem c5_witness :
    decodeMarkers [['1', '4', '8'], ['-', '1', '7', '5', '.', '9', '1'],
        ['+', '9', '8', '.', '7', '4'], ['+', '7', '.', '1', '0'],
        ['1', '8', '2', '.', '3', '9']] =
      some [(148, ⟨-175.91, 98.74 * 0.01, 7.10 * 0.01, -(182.39 * 0.01)⟩)] ∧
    obsTransform ⟨-175.91, 98.74 * 0.01, 7.10 * 0.01, -(182.39 * 0.01)⟩ =
      (fourdof_to_matrix (0.01 * ((98.74 : ℚ) : ℝ), 0.01 * ((7.10 : ℚ) : ℝ),
        -(0.01 * ((182.39 : ℚ) : ℝ))) (-(((-175.91 : ℚ) : ℝ) * Real.pi / 180)))⁻¹ :=
  c5_marker_transform _ _ _ _ _ 148 (-175.91) 98.74 7.10 182.39
    parseInt_eval1 parseFloat_eval1 parseFloat_eval2 parseFloat_eval3 parseFloat_eval4

/-- C6: the coordinate resolver returns exactly the observed ids present
in the map, each mapped to `marker_to_global * (observation.transform)
⁻¹`, and an unknown-id set of exactly the observed ids absent from the
map, without failing the batch; in particular, with a map containing
only `148` and observations for 148 and 999, the global poses hold the
single entry `148` and the unknown ids are exactly `999`. -/
theorem c6_local_to_global :
    (∀ (α : Type) [Mul α] [Inv α] (mm : String → Option α) (lp : List (ℤ × α)),
      local_to_global mm lp =
        (lp.filterMap
          (fun p => (mm (intToKey p.1)).map (fun g => (intToKey p.1, g * p.2⁻¹))),
         (lp.filterMap
          (fun p =>
            match mm (intToKey p.1) with
            | none => some (intToKey p.1)
            | some _ => none)).toFinset)) ∧
    (∀ (A P Q : M4),
      local_to_global (fun s => if s = "148" then some A else none)
          [(148, P), (999, Q)] =
        ([("148", A * P⁻¹)], {"999"})) := by
  constructor
  · intro α _ _ mm lp
    exact local_to_global_eq mm lp
  · intro A P Q
    rw [local_to_global_eq]
    have h148 : intToKey 148 = "148" := by decide
    have h999 : intToKey 999 = "999" := by decide
    simp [h148, h999]

/-- C7: the command channel succeeds exactly when the accumulated
response bytes come to end with the expected acknowledgement frame
(any leading noise tolerated, only a tail match is required), and it
fails with the unexpected-response error carrying the command sent and
the bytes accumulated as soon as a read returns zero new bytes while no
tail match holds. -/
theorem c7_command_channel (args : List (List Char)) (a noise : List Char)
    (rs : List (Option Char)) :
    (sendCommand args a rs = .ok ↔
      ∃ n, n ≤ rs.length ∧ (∀ r ∈ rs.take n, r.isSome = true) ∧
        tailMatches (a ++ (rs.take n).filterMap id) (expectedResponse args)) ∧
    (¬ tailMatches a (expectedResponse args) →
      sendCommand args a (none :: rs) =
        .unexpectedResponse (commandStr args) a) ∧
    sendCommand args (noise ++ expectedResponse args) rs = .ok := by
  refine ⟨awaitEcho_ok_iff _ _ rs a, fun h => ?_, ?_⟩
  · show awaitEcho _ _ a (none :: rs) = _
    simp [awaitEcho, if_neg h]
  · exact awaitEcho_ok_of_match _ _ _ rs (tailMatches_append_self noise _)

/-- C7 witness: a port answering `xyz` + expected frame succeeds; a port
that times out immediately with no match fails, reporting the command
and the empty accumulation. -/
theorem c7_witness :
    sendCommand [("CalcStop").toList]
        (("xyz").toList ++ expectedResponse [("CalcStop").toList]) [] = .ok ∧
    sendCommand [("CalcStop").toList] [] [none] =
      .unexpectedResponse (commandStr [("CalcStop").toList]) [] :=
  ⟨(c7_command_channel [("CalcStop").toList] [] (("xyz").toList) []).2.2,
   (c7_command_channel [("CalcStop").toList] [] (("xyz").toList) []).2.1 (by decide)⟩

/-- C8 (code bug): after `start_streaming` on a connected idle driver,
`_thread` holds the return value of `Thread(...).start()`, which is
`None`, so `is_streaming` reports false and `set_parameter` passes its
assertion and writes the command bytes to the port instead of failing
fast, contradicting the documented contract. -/
theorem c8_streaming_bug (name value : List Char) :
    start_streaming ⟨true, none⟩ =
      some (⟨true, none⟩, commandStr [("CalcStart").toList]) ∧
    is_streaming ⟨true, none⟩ = false ∧
    set_parameter ⟨true, none⟩ name value = some (commandStr [name, value]) := by
  refine ⟨?_, rfl, ?_⟩
  · simp [start_streaming, is_streaming]
  · simp [set_parameter, is_streaming]

/-- C9: every payload the frame extractor yields is non-empty, and a
START immediately followed by an END produces no payload at all: both
bytes are silently discarded along with everything else up to that END
marker. -/
theorem c9_nonempty_payloads :
    (∀ buf p : List Char, p ∈ (process_buffer buf).1 → p ≠ []) ∧
    (∀ x y : List Char, STX ∉ x → STX ∉ y → ETX ∉ y →
      process_buffer (x ++ STX :: ETX :: y) = ([], y)) := by
  constructor
  · exact payload_nonempty
  · intro x y hSx hSy hEy
    have hfind : ∀ x' : List Char, STX ∉ x' →
        findall (x' ++ STX :: ETX :: y) = [] := by
      intro x'
      induction x' with
      | nil =>
        intro _
        have h1 : regexMatch (ETX :: y) = none := by
          simp only [regexMatch, if_neg ETX_ne_newline]
          exact goMatch_none y [ETX] hEy
        rw [List.nil_append, findall_cons_nomatch _ h1,
          findall_cons_other ETX y (Ne.symm STX_ne_ETX), findall_no_STX y hSy]
      | cons c x' ih =>
        intro h
        simp only [List.mem_cons, not_or] at h
        rw [List.cons_append, findall_cons_other c _ (fun hc => h.1 hc.symm)]
        exact ih h.2
    have hrem : bufferRemainder (x ++ STX :: ETX :: y) = y := by
      have hsplit : x ++ STX :: ETX :: y = (x ++ [STX]) ++ (ETX :: y) := by simp
      rw [hsplit, bufferRemainder_append_right _ _ (List.mem_cons_self ETX y),
        bufferRemainder_etx_cons, bufferRemainder_of_no_ETX y hEy]
    unfold process_buffer
    rw [hfind x hSx, hrem]
    rfl

/-- C9 witness: the non-empty-payload fact at the concrete buffer
`x~ab` + ETX, and the empty-frame fact at `cd` + STX ETX + `ef`. -/
theorem c9_witness :
    (("ab").toList ≠ []) ∧
    process_buffer (("cd").toList ++ STX :: ETX :: ("ef").toList) =
      ([], ("ef").toList) :=
  ⟨c9_nonempty_payloads.1 (("x~ab").toList ++ [ETX]) (("ab").toList) (by decide),
   c9_nonempty_payloads.2 (("cd").toList) (("ef").toList)
     (by decide) (by decide) (by decide)⟩

/-- C10: decoder error handling is asymmetric: a frame on which a parse
of the count character, a marker id or a numeric field raises makes the
read loop reset the buffer to empty and terminate, while frames whose
field count merely mismatches five per marker are skipped without any
exception, the buffer keeps the bytes after the last ETX, and the loop
continues. -/
theorem c10_error_asymmetry :
    (∀ buf chunk cand : List Char, cand ∈ findall (buf ++ chunk) →
      processRawPose cand.dropLast = PoseOutcome.err →
      readStep buf chunk =
        ((runCandidates (findall (buf ++ chunk))).1, [], true)) ∧
    (∀ buf chunk : List Char,
      (∀ cand ∈ findall (buf ++ chunk),
        processRawPose cand.dropLast ≠ PoseOutcome.err) →
      readStep buf chunk = ((findall (buf ++ chunk)).filterMap okOf,
        bufferRemainder (buf ++ chunk), false)) := by
  constructor
  · intro buf chunk cand hmem herr
    have h2 := runCandidates_err _ cand hmem herr
    simp only [readStep, h2]
    rfl
  · intro buf chunk hall
    have h1 := runCandidates_no_err _ hall
    simp only [readStep, h1]
    rfl

/-- C10 witness: the raising branch at the frame `~xx` + ETX (count
character `x` fails to parse) and the skipping branch at the
marker-count-2, six-field frame followed by `XY`. -/
theorem c10_witness :
    readStep [] (STX :: ("xx").toList ++ [ETX]) =
      ((runCandidates (findall ([] ++ (STX :: ("xx").toList ++ [ETX])))).1,
        [], true) ∧
    readStep [] c4chunk =
      ((findall ([] ++ c4chunk)).filterMap okOf,
        bufferRemainder ([] ++ c4chunk), false) :=
  ⟨c10_error_asymmetry.1 [] (STX :: ("xx").toList ++ [ETX])
      (("xx").toList ++ [ETX]) (by decide) (by decide),
   c10_error_asymmetry.2 [] c4chunk (by decide)⟩
